import Mathlib

/-!
Shallow embedding of the knowledge-graph dataset layer of PGL
(`apps/graph4kg/utils/dataset.py`): the negative sampler
(`KGDataset.uniform_sampler`), the batch reindexer (`KGDataset.group_index`),
the collation pipeline (`KGDataset._collate_fn` and the head / tail / mixed
collate functions), and the evaluation dataset (`TestKGDataset`).

Conventions of the embedding:
* entity and relation ids are `Nat`;
* `numpy` randomness is an explicit stream `Rng`: `np.random.randint(0, n, s)`
  consumes `s` stream values, each taken modulo `n`;
* the unbounded rejection loop of the filtered sampler is given explicit
  fuel; `none` models both non-termination within the fuel budget and a
  raised Python exception (`KeyError`, `ValueError`, ...);
* Python dicts are association lists looked up with `List.lookup`;
  `np.unique` is sort-of-deduplicate.
-/

namespace PGL

/-- Explicit stream of random values standing for numpy's global PRNG:
`stream i` is the i-th raw draw, `pos` the number of values consumed so far. -/
structure Rng where
  stream : Nat → Nat
  pos : Nat

/-- `np.random.randint(0, n, size)`: `size` draws in `[0, n)` (each raw stream
value reduced modulo `n`), advancing the stream position. -/
def randint (n : Nat) (size : Nat) (g : Rng) : List Nat × Rng :=
  ((List.range size).map (fun i => g.stream (g.pos + i) % n), ⟨g.stream, g.pos + size⟩)

/-- The candidate domain of `uniform_sampler`: either an integer `n_cand`
(sample indices directly, `e_cand = None`) or an explicit entity array. -/
inductive Cand where
  | size (n : Nat)
  | ents (l : List Nat)
deriving DecidableEq

/-- `n_cand = cand if isinstance(cand, int) else len(cand)`. -/
def nCand : Cand → Nat
  | .size n => n
  | .ents l => l.length

/-- `new_e if e_cand is None else e_cand[new_e]` applied to a drawn index. -/
def candAt : Cand → Nat → Nat
  | .size _, i => i
  | .ents l, i => l.getD i 0

/-- Mapping a whole array of drawn indices through the candidate domain. -/
def mapCand (c : Cand) (idxs : List Nat) : List Nat :=
  idxs.map (candAt c)

/-- Membership in the candidate domain. -/
def inDomain : Cand → Nat → Prop
  | .size n, e => e < n
  | .ents l, e => e ∈ l

instance : DecidablePred (inDomain c) := by
  intro e
  cases c <;> simp [inDomain] <;> infer_instance

/-- The `while new_e_num < k` rejection loop of `uniform_sampler`: draw `2*k`
indices, map them through the candidate domain, drop ids present in the filter
set (`np.in1d(..., invert=True)`), accumulate, and on exit truncate to `k`
(`np.concatenate(new_e_list)[:k]`). Fuel bounds the number of iterations of
the (unbounded) Python loop. -/
def samplerLoop (fuel k : Nat) (cand : Cand) (fs : List Nat) (acc : List Nat) (g : Rng) :
    Option (List Nat × Rng) :=
  match fuel with
  | 0 => none
  | fuel + 1 =>
    if k ≤ acc.length then some (acc.take k, g)
    else
      let p := randint (nCand cand) (2 * k) g
      let surv := (mapCand cand p.1).filter (fun e => !(fs.contains e))
      samplerLoop fuel k cand fs (acc ++ surv) p.2

/-- `KGDataset.uniform_sampler`. With a filter set, rejection sampling
(`k = 0` is `none`: the loop body never runs and `np.concatenate([])` raises
`ValueError`); without, `k` draws mapped through the candidate domain. -/
def uniform_sampler (fuel k : Nat) (cand : Cand) (filter_set : Option (List Nat)) (g : Rng) :
    Option (List Nat × Rng) :=
  match filter_set with
  | some fs =>
    if k = 0 then none
    else samplerLoop fuel k cand fs [] g
  | none =>
    let p := randint (nCand cand) k g
    some (mapCand cand p.1, p.2)

/-- `np.unique(np.concatenate(data))` on one flattened list: the sorted list
of distinct values. -/
def np_unique (l : List Nat) : List Nat :=
  List.insertionSort (· ≤ ·) l.dedup

/-- `reindex_dict = dict([(x, i) for i, x in enumerate(uniques)])` followed by
`reindex_dict[x]`: association-list lookup, `none` on a missing key
(`KeyError`). -/
def reindexOf (uniques : List Nat) : Nat → Option Nat :=
  fun x => (uniques.enum.map (fun p => (p.2, p.1))).lookup x

/-- `KGDataset.group_index`: the reindex function together with the sorted
vocabulary of distinct ids occurring in `data`. -/
def group_index (data : List (List Nat)) : (Nat → Option Nat) × List Nat :=
  let uniques := np_unique data.flatten
  (reindexOf uniques, uniques)

/-- A filter dictionary for one corruption side: `{(anchor, relation): set}`
as an association list. -/
abbrev FDict := List ((Nat × Nat) × List Nat)

/-- `fl_set[(a, r)] if fl_set else None`: `none` (outer) is a `KeyError`;
`some none` means the dict was falsy (Python `None` or empty) and no filter
applies; `some (some s)` is the filter set found for the key. -/
def flLookup (fl : Option FDict) (key : Nat × Nat) : Option (Option (List Nat)) :=
  match fl with
  | none => some none
  | some d =>
    if d.isEmpty then some none
    else
      match d.lookup key with
      | none => none
      | some s => some (some s)

/-- Corruption side: which endpoint of a triplet is replaced by negatives. -/
inductive Side where
  | head
  | tail
deriving DecidableEq

/-- A `(h, r, t)` triplet. -/
abbrev Triplet := Nat × Nat × Nat

/-- The filter-dict key used when sampling negatives for a triplet:
`(t, r)` when corrupting heads, `(h, r)` when corrupting tails. -/
def negKey (mode : Side) (tp : Triplet) : Nat × Nat :=
  match mode with
  | .head => (tp.2.2, tp.2.1)
  | .tail => (tp.1, tp.2.1)

/-- The per-triplet sampling loop of `_collate_fn`: for each triplet look up
its filter set and call `uniform_sampler` for `k` negatives, threading the
random stream. -/
def sampleNegs (fuel k : Nat) (cand : Cand) (fl : Option FDict) (mode : Side)
    (data : List Triplet) (g : Rng) : Option (List (List Nat) × Rng) :=
  match data with
  | [] => some ([], g)
  | tp :: rest =>
    match flLookup fl (negKey mode tp) with
    | none => none
    | some fsi =>
      match uniform_sampler fuel k cand fsi g with
      | none => none
      | some (ne, g') =>
        match sampleNegs fuel k cand fl mode rest g' with
        | none => none
        | some (nes, g'') => some (ne :: nes, g'')

/-- Elementwise application of the reindex function to an id array, as done by
`np.vectorize(lambda x: reindex_dict[x])`: `none` as soon as one id is missing
from the vocabulary (`KeyError`). -/
def applyReindex (f : Nat → Option Nat) : List Nat → Option (List Nat)
  | [] => some []
  | x :: xs =>
    match f x, applyReindex f xs with
    | some y, some ys => some (y :: ys)
    | _, _ => none

/-- `applyReindex` row by row, for the stacked negative-sample arrays. -/
def applyReindexRows (f : Nat → Option Nat) : List (List Nat) → Option (List (List Nat))
  | [] => some []
  | x :: xs =>
    match applyReindex f x, applyReindexRows f xs with
    | some y, some ys => some (y :: ys)
    | _, _ => none

/-- Negative-sampling strategy: from entities in the batch, or from the whole
entity set. -/
inductive NegMode where
  | batch
  | full
deriving DecidableEq

/-- The value returned by `_collate_fn`: reindexed heads, relations, reindexed
tails, reindexed negatives (one row per triplet), the batch vocabulary
`all_ents`, and the corruption-side label. -/
structure CollateOut where
  h : List Nat
  r : List Nat
  t : List Nat
  neg_ents : List (List Nat)
  all_ents : List Nat
  mode : Side
deriving DecidableEq

/-- `KGDataset._collate_fn`. An empty batch is `none` (`np.array([]).T`
cannot be unpacked into `h, r, t`). In `batch` mode the candidate pool and
the reindexer come from the batch's heads and tails; in `full` mode the pool
is the whole universe `[0, num_ents)` and the reindexer is rebuilt from
heads, tails and all sampled negatives. Reindexing failures (`KeyError` in
`np.vectorize(lambda x: reindex_dict[x])`) are `none`. -/
def collate_fn_impl (fuel num_ents num_negs : Nat) (neg_mode : NegMode)
    (data : List Triplet) (mode : Side) (fl : Option FDict) (g : Rng) : Option CollateOut :=
  if data.isEmpty then none
  else
    let h := data.map (fun tp => tp.1)
    let r := data.map (fun tp => tp.2.1)
    let t := data.map (fun tp => tp.2.2)
    match neg_mode with
    | .batch =>
      let gi := group_index [h, t]
      let cand := Cand.ents gi.2
      match sampleNegs fuel num_negs cand fl mode data g with
      | none => none
      | some (negs, _) =>
        match applyReindex gi.1 h, applyReindex gi.1 t, applyReindexRows gi.1 negs with
        | some h', some t', some negs' => some ⟨h', r, t', negs', gi.2, mode⟩
        | _, _, _ => none
    | .full =>
      let cand := Cand.size num_ents
      match sampleNegs fuel num_negs cand fl mode data g with
      | none => none
      | some (negs, _) =>
        let gi := group_index [h, t, negs.flatten]
        match applyReindex gi.1 h, applyReindex gi.1 t, applyReindexRows gi.1 negs with
        | some h', some t', some negs' => some ⟨h', r, t', negs', gi.2, mode⟩
        | _, _, _ => none

/-- The `_filter_dict` instance attribute: an optional filter dict per side
(`none` models the Python value `None`). -/
structure FilterPair where
  head : Option FDict
  tail : Option FDict
deriving DecidableEq

/-- The state of a `KGDataset` instance after `__init__`. -/
structure KGDataset where
  _triplets : List Triplet
  _num_ents : Nat
  _num_negs : Nat
  _neg_mode : NegMode
  _filter_mode : Bool
  _filter_dict : FilterPair
  _step : Nat
deriving DecidableEq

/-- `KGDataset.__init__`: with `filter_mode` false the supplied `filter_dict`
is discarded and replaced by `{'head': None, 'tail': None}`; with it true the
argument must be present (else the `assert` fails, modelled as `none`) and is
stored as given. `_step` starts at 0. -/
def KGDataset.init (triplets : List Triplet) (num_ents num_negs : Nat)
    (neg_mode : NegMode) (filter_mode : Bool) (filter_dict : Option FilterPair) :
    Option KGDataset :=
  if filter_mode = false then
    some ⟨triplets, num_ents, num_negs, neg_mode, filter_mode, ⟨none, none⟩, 0⟩
  else
    match filter_dict with
    | none => none
    | some fd => some ⟨triplets, num_ents, num_negs, neg_mode, filter_mode, fd, 0⟩

/-- `KGDataset.head_collate_fn`: corrupt heads, filtering by
`_filter_dict['head']`. -/
def KGDataset.head_collate_fn (ds : KGDataset) (fuel : Nat) (data : List Triplet)
    (g : Rng) : Option CollateOut :=
  collate_fn_impl fuel ds._num_ents ds._num_negs ds._neg_mode data .head ds._filter_dict.head g

/-- `KGDataset.tail_collate_fn`: corrupt tails, filtering by
`_filter_dict['tail']`. -/
def KGDataset.tail_collate_fn (ds : KGDataset) (fuel : Nat) (data : List Triplet)
    (g : Rng) : Option CollateOut :=
  collate_fn_impl fuel ds._num_ents ds._num_negs ds._neg_mode data .tail ds._filter_dict.tail g

/-- `KGDataset.mixed_collate_fn`: increments `_step`, then corrupts heads when
the incremented counter is even and tails when it is odd. Returns the mutated
dataset together with the collation result. -/
def KGDataset.mixed_collate_fn (ds : KGDataset) (fuel : Nat) (data : List Triplet)
    (g : Rng) : KGDataset × Option CollateOut :=
  let ds' : KGDataset := { ds with _step := ds._step + 1 }
  if ds'._step % 2 = 0 then
    (ds', collate_fn_impl fuel ds._num_ents ds._num_negs ds._neg_mode data .head
      ds._filter_dict.head g)
  else
    (ds', collate_fn_impl fuel ds._num_ents ds._num_negs ds._neg_mode data .tail
      ds._filter_dict.tail g)

/-- The dataset state after `n` successive `mixed_collate_fn` calls on the
same instance (each call mutates `_step`). -/
def iterMixed (ds : KGDataset) (fuel : Nat) (data : List Triplet) (g : Rng) : Nat → KGDataset
  | 0 => ds
  | n + 1 => ((iterMixed ds fuel data g n).mixed_collate_fn fuel data g).1

/-- Evaluation mode tag of `TestKGDataset`: `wiki` or `normal`. -/
inductive TMode where
  | wiki
  | normal
deriving DecidableEq

/-- The `candidate` field of the test triplet dict: in `normal` mode, the
entity count whose range is the shared candidate set; in `wiki` mode, one
candidate list per query. -/
inductive TCand where
  | num (n : Nat)
  | lists (ls : List (List Nat))
deriving DecidableEq

/-- The candidate component of one `__getitem__` result: in `normal` mode the
shared `self._cand` object is returned as-is; in `wiki` mode the row at the
given index. -/
inductive ItemCand where
  | whole (c : TCand)
  | row (l : List Nat)
deriving DecidableEq

/-- One `TestKGDataset.__getitem__` result: `((h, r, t), cand, corr_idx)`. -/
structure TestItem where
  hrt : Nat × Nat × Option Nat
  cand : ItemCand
  corr : Option Nat
deriving DecidableEq

/-- The state of a `TestKGDataset` instance after `__init__` (the `assert`
restricts `_mode` to `wiki` / `normal`, enforced here by the `TMode` type). -/
structure TestKGDataset where
  _num_ents : Nat
  _mode : TMode
  _h : List Nat
  _r : List Nat
  _t : Option (List Nat)
  _cand : TCand
  _corr_idx : Option (List Nat)
deriving DecidableEq

/-- Python truthiness of `self._corr_idx`: `None` and the empty collection
are falsy. -/
def corrTruthy : Option (List Nat) → Bool
  | none => false
  | some l => !l.isEmpty

/-- `TestKGDataset.__getitem__`: the triplet fields at `index` (`t` only when
`self._t` is present), the shared candidate object in `normal` mode or the
indexed candidate row in `wiki` mode (`none` when a `wiki` candidate object
cannot be indexed per item), and the correct index when `_corr_idx` is
truthy. -/
def TestKGDataset.getitem (ds : TestKGDataset) (index : Nat) : Option TestItem :=
  let h := ds._h.getD index 0
  let r := ds._r.getD index 0
  let t := ds._t.map (fun tl => tl.getD index 0)
  let corr := if corrTruthy ds._corr_idx then
      some ((ds._corr_idx.getD []).getD index 0)
    else
      none
  match ds._mode, ds._cand with
  | .normal, c => some ⟨(h, r, t), .whole c, corr⟩
  | .wiki, .lists ls => some ⟨(h, r, t), .row (ls.getD index []), corr⟩
  | .wiki, .num _ => none

/-- The batch returned by `TestKGDataset.collate_fn`: the mode label, the
`(h, r, t, cand)` tensors (`t` optional, `cand` a 2-D tensor as list of
rows), and the optional correct-index tensor. -/
structure TestBatch where
  mode : TMode
  h : List Nat
  r : List Nat
  t : Option (List Nat)
  cand : List (List Nat)
  corr : Option (List Nat)
deriving DecidableEq

/-- `TestKGDataset.collate_fn`. An empty batch is `none` (`data[0]` /
`np.stack([])` raise). In `wiki` mode the per-item candidate rows are
stacked and the correct indices collected when `_corr_idx` is truthy; in
`normal` mode `t` is rebuilt from the items (`none` if any item lacks `t`),
the candidate tensor is `paddle.arange(data[0][1])` reshaped to one row —
which requires the first item's candidate object to be an integer — and the
correct-index output is `None`. -/
def TestKGDataset.collate_fn (ds : TestKGDataset) (data : List TestItem) :
    Option TestBatch :=
  match data with
  | [] => none
  | d0 :: _ =>
    let h := data.map (fun x => x.hrt.1)
    let r := data.map (fun x => x.hrt.2.1)
    match ds._mode with
    | .wiki =>
      match data.mapM (fun x => match x.cand with | .row l => some l | _ => none) with
      | none => none
      | some rows =>
        if corrTruthy ds._corr_idx then
          match data.mapM (fun x => x.corr) with
          | none => none
          | some cs => some ⟨.wiki, h, r, none, rows, some cs⟩
        else
          some ⟨.wiki, h, r, none, rows, none⟩
    | .normal =>
      match data.mapM (fun x => x.hrt.2.2) with
      | none => none
      | some ts =>
        match d0.cand with
        | .whole (.num n) => some ⟨.normal, h, r, some ts, [List.range n], none⟩
        | _ => none

/-! ### Lemmas about `np_unique` and the reindexer -/

theorem np_unique_sorted (l : List Nat) : (np_unique l).Sorted (· ≤ ·) :=
  List.sorted_insertionSort _ _

theorem np_unique_nodup (l : List Nat) : (np_unique l).Nodup :=
  (List.perm_insertionSort _ _).nodup_iff.mpr (List.nodup_dedup l)

theorem mem_np_unique {x : Nat} {l : List Nat} : x ∈ np_unique l ↔ x ∈ l := by
  unfold np_unique
  rw [(List.perm_insertionSort _ _).mem_iff, List.mem_dedup]

theorem np_unique_length_le (l : List Nat) : (np_unique l).length ≤ l.length := by
  have h1 : (np_unique l).length = l.dedup.length :=
    (List.perm_insertionSort _ _).length_eq
  have h2 : l.dedup.length ≤ l.length := (List.dedup_sublist l).length_le
  omega

theorem lookup_enumFrom_swap (l : List Nat) (n x : Nat) :
    ((l.enumFrom n).map (fun p => (p.2, p.1))).lookup x =
      if x ∈ l then some (n + l.indexOf x) else none := by
  induction l generalizing n with
  | nil => simp
  | cons a tl ih =>
    by_cases hxa : x = a
    · subst hxa
      simp [List.enumFrom, List.lookup_cons, List.indexOf_cons_self]
    · have hne : (x == a) = false := beq_false_of_ne hxa
      simp only [List.enumFrom, List.map_cons, List.lookup_cons, hne, ih (n + 1),
        List.indexOf_cons_ne _ (fun h => hxa h.symm)]
      by_cases hx : x ∈ tl
      · simp only [hx, if_true, List.mem_cons, hxa, false_or, Nat.succ_eq_add_one]
        congr 1
        omega
      · simp [hx, hxa]

theorem reindexOf_eq (u : List Nat) (x : Nat) :
    reindexOf u x = if x ∈ u then some (u.indexOf x) else none := by
  have h := lookup_enumFrom_swap u 0 x
  simpa [reindexOf, List.enum] using h

theorem reindexOf_mem {u : List Nat} {x : Nat} (hx : x ∈ u) :
    reindexOf u x = some (u.indexOf x) := by
  rw [reindexOf_eq, if_pos hx]

theorem reindexOf_not_mem {u : List Nat} {x : Nat} (hx : x ∉ u) :
    reindexOf u x = none := by
  rw [reindexOf_eq, if_neg hx]

theorem reindexOf_some_getD {u : List Nat} {x i : Nat} (h : reindexOf u x = some i) :
    x ∈ u ∧ i < u.length ∧ u.getD i 0 = x := by
  rw [reindexOf_eq] at h
  by_cases hx : x ∈ u
  · rw [if_pos hx] at h
    have hi : i = u.indexOf x := by
      injection h with h
      omega
    subst hi
    have hlt : u.indexOf x < u.length := List.indexOf_lt_length.mpr hx
    exact ⟨hx, hlt, by rw [List.getD_eq_getElem u 0 hlt, List.getElem_indexOf hlt]⟩
  · rw [if_neg hx] at h
    exact absurd h (by simp)

/-! ### Lemmas about `applyReindex` -/

theorem applyReindex_some_of_forall {f : Nat → Option Nat} {l : List Nat}
    (h : ∀ x ∈ l, (f x).isSome) : ∃ l', applyReindex f l = some l' := by
  induction l with
  | nil => exact ⟨[], rfl⟩
  | cons a tl ih =>
    obtain ⟨l', hl'⟩ := ih (fun x hx => h x (List.mem_cons_of_mem a hx))
    obtain ⟨y, hy⟩ := Option.isSome_iff_exists.mp (h a (List.mem_cons_self a tl))
    exact ⟨y :: l', by simp [applyReindex, hy, hl']⟩

theorem applyReindex_mem {f : Nat → Option Nat} {l l' : List Nat}
    (h : applyReindex f l = some l') : ∀ y ∈ l', ∃ x ∈ l, f x = some y := by
  induction l generalizing l' with
  | nil =>
    simp only [applyReindex] at h
    injection h with h
    subst h
    simp
  | cons a tl ih =>
    simp only [applyReindex] at h
    rcases hfa : f a with _ | y₀ <;> rw [hfa] at h
    · exact absurd h (by simp)
    · rcases hrec : applyReindex f tl with _ | ys <;> rw [hrec] at h
      · exact absurd h (by simp)
      · injection h with h
        subst h
        intro y hy
        rcases List.mem_cons.mp hy with hy | hy
        · exact ⟨a, List.mem_cons_self a tl, hy ▸ hfa⟩
        · obtain ⟨x, hx, hfx⟩ := ih hrec y hy
          exact ⟨x, List.mem_cons_of_mem a hx, hfx⟩

theorem applyReindex_length {f : Nat → Option Nat} {l l' : List Nat}
    (h : applyReindex f l = some l') : l'.length = l.length := by
  induction l generalizing l' with
  | nil =>
    simp only [applyReindex] at h
    injection h with h
    subst h
    rfl
  | cons a tl ih =>
    simp only [applyReindex] at h
    rcases hfa : f a with _ | y₀ <;> rw [hfa] at h
    · exact absurd h (by simp)
    · rcases hrec : applyReindex f tl with _ | ys <;> rw [hrec] at h
      · exact absurd h (by simp)
      · injection h with h
        subst h
        simp [ih hrec]

theorem applyReindexRows_mem {f : Nat → Option Nat} {l l' : List (List Nat)}
    (h : applyReindexRows f l = some l') :
    ∀ row ∈ l', ∃ src ∈ l, applyReindex f src = some row := by
  induction l generalizing l' with
  | nil =>
    simp only [applyReindexRows] at h
    injection h with h
    subst h
    simp
  | cons a tl ih =>
    simp only [applyReindexRows] at h
    rcases hfa : applyReindex f a with _ | y₀ <;> rw [hfa] at h
    · exact absurd h (by simp)
    · rcases hrec : applyReindexRows f tl with _ | ys <;> rw [hrec] at h
      · exact absurd h (by simp)
      · injection h with h
        subst h
        intro row hrow
        rcases List.mem_cons.mp hrow with hy | hy
        · exact ⟨a, List.mem_cons_self a tl, hy ▸ hfa⟩
        · obtain ⟨x, hx, hfx⟩ := ih hrec row hy
          exact ⟨x, List.mem_cons_of_mem a hx, hfx⟩

/-! ### Lemmas about `randint`, `mapCand` and the sampler -/

theorem randint_fst_length (n s : Nat) (g : Rng) : (randint n s g).1.length = s := by
  simp [randint]

theorem randint_fst_lt {n s : Nat} {g : Rng} (hn : 0 < n) :
    ∀ v ∈ (randint n s g).1, v < n := by
  intro v hv
  simp only [randint, List.mem_map] at hv
  obtain ⟨i, _, hi⟩ := hv
  exact hi ▸ Nat.mod_lt _ hn

theorem candAt_inDomain {c : Cand} {i : Nat} (hi : i < nCand c) :
    inDomain c (candAt c i) := by
  cases c with
  | size n => exact hi
  | ents l =>
    simp only [nCand] at hi
    simp only [candAt, inDomain, List.getD_eq_getElem l 0 hi]
    exact List.getElem_mem hi

theorem mapCand_length (c : Cand) (idxs : List Nat) : (mapCand c idxs).length = idxs.length := by
  simp [mapCand]

theorem mem_mapCand_inDomain {c : Cand} {idxs : List Nat}
    (hidx : ∀ i ∈ idxs, i < nCand c) : ∀ e ∈ mapCand c idxs, inDomain c e := by
  intro e he
  simp only [mapCand, List.mem_map] at he
  obtain ⟨i, hi, rfl⟩ := he
  exact candAt_inDomain (hidx i hi)

/-- Invariant of the rejection loop: on success the result has length `k`,
avoids the filter set, and (when the candidate domain is inhabited) stays in
the candidate domain — provided the accumulator already does. -/
theorem samplerLoop_spec {fuel k : Nat} {cand : Cand} {fs acc res : List Nat}
    {g g' : Rng}
    (hacc_fs : ∀ e ∈ acc, e ∉ fs)
    (hacc_dom : ∀ e ∈ acc, inDomain cand e)
    (hn : 0 < nCand cand)
    (h : samplerLoop fuel k cand fs acc g = some (res, g')) :
    res.length = k ∧ (∀ e ∈ res, e ∉ fs) ∧ (∀ e ∈ res, inDomain cand e) := by
  induction fuel generalizing acc g res g' with
  | zero => exact absurd h (by simp [samplerLoop])
  | succ fuel ih =>
    rw [samplerLoop] at h
    by_cases hle : k ≤ acc.length
    · rw [if_pos hle] at h
      injection h with h
      have hres : res = acc.take k := (congrArg Prod.fst h).symm
      subst hres
      refine ⟨by simp [List.length_take]; omega, ?_, ?_⟩
      · exact fun e he => hacc_fs e (List.mem_of_mem_take he)
      · exact fun e he => hacc_dom e (List.mem_of_mem_take he)
    · rw [if_neg hle] at h
      have hsurv_fs : ∀ e ∈ (mapCand cand (randint (nCand cand) (2 * k) g).1).filter
          (fun e => !(fs.contains e)), e ∉ fs := by
        intro e he hmem
        have h1 := List.of_mem_filter he
        rw [Bool.not_eq_true'] at h1
        have h2 : fs.contains e = true := List.elem_iff.mpr hmem
        rw [h1] at h2
        exact Bool.false_ne_true h2
      have hsurv_dom : ∀ e ∈ (mapCand cand (randint (nCand cand) (2 * k) g).1).filter
          (fun e => !(fs.contains e)), inDomain cand e := by
        intro e he
        exact mem_mapCand_inDomain
          (fun i hi => randint_fst_lt hn i hi) e (List.mem_of_mem_filter he)
      refine ih ?_ ?_ h
      · intro e he
        rcases List.mem_append.mp he with he | he
        · exact hacc_fs e he
        · exact hsurv_fs e he
      · intro e he
        rcases List.mem_append.mp he with he | he
        · exact hacc_dom e he
        · exact hsurv_dom e he

/-- On success, the filtered branch of `uniform_sampler` returns exactly `k`
ids, all outside the filter set and inside the candidate domain. -/
theorem uniform_sampler_filtered_out {fuel k : Nat} {cand : Cand} {fs res : List Nat}
    {g g' : Rng} (hn : 0 < nCand cand)
    (h : uniform_sampler fuel k cand (some fs) g = some (res, g')) :
    res.length = k ∧ (∀ e ∈ res, e ∉ fs) ∧ (∀ e ∈ res, inDomain cand e) := by
  rw [uniform_sampler] at h
  by_cases hk : k = 0
  · rw [if_pos hk] at h
    exact absurd h (by simp)
  · rw [if_neg hk] at h
    exact samplerLoop_spec (by simp) (by simp) hn h

/-- The unfiltered branch of `uniform_sampler` always succeeds, with exactly
`k` ids from the candidate domain. -/
theorem uniform_sampler_unfiltered_out {fuel k : Nat} {cand : Cand} {res : List Nat}
    {g g' : Rng} (hn : 0 < nCand cand)
    (h : uniform_sampler fuel k cand none g = some (res, g')) :
    res.length = k ∧ (∀ e ∈ res, inDomain cand e) := by
  rw [uniform_sampler] at h
  injection h with h
  have hres : res = mapCand cand (randint (nCand cand) k g).1 := (congrArg Prod.fst h).symm
  subst hres
  refine ⟨by rw [mapCand_length, randint_fst_length], ?_⟩
  exact mem_mapCand_inDomain (fun i hi => randint_fst_lt hn i hi)

theorem uniform_sampler_unfiltered_isSome (fuel k : Nat) (cand : Cand) (g : Rng) :
    (uniform_sampler fuel k cand none g).isSome := by
  rw [uniform_sampler]
  rfl

/-- Success of `uniform_sampler` with any (optional) filter set gives `k` ids
from the candidate domain. -/
theorem uniform_sampler_out {fuel k : Nat} {cand : Cand} {fs? : Option (List Nat)}
    {res : List Nat} {g g' : Rng} (hn : 0 < nCand cand)
    (h : uniform_sampler fuel k cand fs? g = some (res, g')) :
    res.length = k ∧ ∀ e ∈ res, inDomain cand e := by
  cases fs? with
  | none => exact uniform_sampler_unfiltered_out hn h
  | some fs =>
    obtain ⟨h1, _, h3⟩ := uniform_sampler_filtered_out hn h
    exact ⟨h1, h3⟩

/-! ### Lemmas about `sampleNegs` -/

theorem sampleNegs_spec {fuel k : Nat} {cand : Cand} {fl : Option FDict} {mode : Side}
    {data : List Triplet} {g g' : Rng} {negs : List (List Nat)}
    (hn : 0 < nCand cand)
    (h : sampleNegs fuel k cand fl mode data g = some (negs, g')) :
    negs.length = data.length ∧ ∀ nl ∈ negs, nl.length = k ∧ ∀ e ∈ nl, inDomain cand e := by
  induction data generalizing g negs g' with
  | nil =>
    rw [sampleNegs] at h
    injection h with h
    have : negs = [] := (congrArg Prod.fst h).symm
    subst this
    simp
  | cons tp rest ih =>
    rw [sampleNegs] at h
    rcases hfl : flLookup fl (negKey mode tp) with _ | fsi <;> rw [hfl] at h <;>
      dsimp only at h
    · exact absurd h (by simp)
    · rcases hs : uniform_sampler fuel k cand fsi g with _ | ⟨ne, g₁⟩ <;> rw [hs] at h <;>
        dsimp only at h
      · exact absurd h (by simp)
      · rcases hrec : sampleNegs fuel k cand fl mode rest g₁ with _ | ⟨nes, g₂⟩ <;>
          rw [hrec] at h <;> dsimp only at h
        · exact absurd h (by simp)
        · injection h with h
          have hne : negs = ne :: nes := (congrArg Prod.fst h).symm
          subst hne
          obtain ⟨hlen, hrest⟩ := ih hrec
          refine ⟨by simp [hlen], ?_⟩
          intro nl hnl
          rcases List.mem_cons.mp hnl with hnl | hnl
          · subst hnl
            exact uniform_sampler_out hn hs
          · exact hrest nl hnl

theorem sampleNegs_none_isSome (fuel k : Nat) (cand : Cand) (mode : Side)
    (data : List Triplet) (g : Rng) :
    (sampleNegs fuel k cand none mode data g).isSome := by
  induction data generalizing g with
  | nil => rw [sampleNegs]; rfl
  | cons tp rest ih =>
    rw [sampleNegs]
    have hfl : flLookup none (negKey mode tp) = some none := rfl
    rw [hfl]
    dsimp only
    rw [show uniform_sampler fuel k cand none g =
      some (mapCand cand (randint (nCand cand) k g).1, (randint (nCand cand) k g).2) from rfl]
    dsimp only
    obtain ⟨⟨nes, g₂⟩, hrec⟩ := Option.isSome_iff_exists.mp (ih _)
    rw [hrec]
    rfl

/-! ### Inversion lemmas for `collate_fn_impl` -/

theorem collate_inv_batch {fuel num_ents k : Nat} {data : List Triplet} {mode : Side}
    {fl : Option FDict} {g : Rng} {out : CollateOut}
    (h : collate_fn_impl fuel num_ents k .batch data mode fl g = some out) :
    data ≠ [] ∧ out.mode = mode ∧ out.r = data.map (fun tp => tp.2.1) ∧
    out.all_ents =
      np_unique (data.map (fun tp => tp.1) ++ (data.map (fun tp => tp.2.2) ++ [])) ∧
    ∃ negs g',
      sampleNegs fuel k (Cand.ents out.all_ents) fl mode data g = some (negs, g') ∧
      applyReindex (reindexOf out.all_ents) (data.map (fun tp => tp.1)) = some out.h ∧
      applyReindex (reindexOf out.all_ents) (data.map (fun tp => tp.2.2)) = some out.t ∧
      applyReindexRows (reindexOf out.all_ents) negs = some out.neg_ents := by
  rw [collate_fn_impl] at h
  by_cases hd : data.isEmpty
  · rw [if_pos hd] at h
    exact absurd h (by simp)
  · rw [if_neg hd] at h
    simp only [group_index, List.flatten_cons, List.flatten_nil] at h
    rcases hs : sampleNegs fuel k
        (Cand.ents (np_unique (data.map (fun tp => tp.1) ++ (data.map (fun tp => tp.2.2) ++ []))))
        fl mode data g with _ | ⟨negs, g'⟩ <;>
      rw [hs] at h <;> (try dsimp only at h)
    · exact absurd h (by simp)
    · rcases hh : applyReindex
          (reindexOf (np_unique
            (data.map (fun tp => tp.1) ++ (data.map (fun tp => tp.2.2) ++ []))))
          (data.map (fun tp => tp.1)) with _ | h' <;> rw [hh] at h <;> (try dsimp only at h)
      · exact absurd h (by simp)
      · rcases ht : applyReindex
            (reindexOf (np_unique
              (data.map (fun tp => tp.1) ++ (data.map (fun tp => tp.2.2) ++ []))))
            (data.map (fun tp => tp.2.2)) with _ | t' <;> rw [ht] at h <;> (try dsimp only at h)
        · exact absurd h (by simp)
        · rcases hng : applyReindexRows
              (reindexOf (np_unique
                (data.map (fun tp => tp.1) ++ (data.map (fun tp => tp.2.2) ++ []))))
              negs with _ | negs' <;> rw [hng] at h <;> (try dsimp only at h)
          · exact absurd h (by simp)
          · injection h with h
            subst h
            refine ⟨fun hnil => by simp [hnil] at hd, rfl, rfl, rfl, negs, g', hs, hh, ht, hng⟩

theorem collate_inv_full {fuel num_ents k : Nat} {data : List Triplet} {mode : Side}
    {fl : Option FDict} {g : Rng} {out : CollateOut}
    (h : collate_fn_impl fuel num_ents k .full data mode fl g = some out) :
    data ≠ [] ∧ out.mode = mode ∧ out.r = data.map (fun tp => tp.2.1) ∧
    ∃ negs g',
      sampleNegs fuel k (Cand.size num_ents) fl mode data g = some (negs, g') ∧
      out.all_ents = np_unique (data.map (fun tp => tp.1) ++
        (data.map (fun tp => tp.2.2) ++ (negs.flatten ++ []))) ∧
      applyReindex (reindexOf out.all_ents) (data.map (fun tp => tp.1)) = some out.h ∧
      applyReindex (reindexOf out.all_ents) (data.map (fun tp => tp.2.2)) = some out.t ∧
      applyReindexRows (reindexOf out.all_ents) negs = some out.neg_ents := by
  rw [collate_fn_impl] at h
  by_cases hd : data.isEmpty
  · rw [if_pos hd] at h
    exact absurd h (by simp)
  · rw [if_neg hd] at h
    dsimp only at h
    rcases hs : sampleNegs fuel k (Cand.size num_ents) fl mode data g with _ | ⟨negs, g'⟩ <;>
      rw [hs] at h <;> (try dsimp only at h)
    · exact absurd h (by simp)
    · simp only [group_index, List.flatten_cons, List.flatten_nil] at h
      rcases hh : applyReindex
          (reindexOf (np_unique (data.map (fun tp => tp.1) ++
            (data.map (fun tp => tp.2.2) ++ (negs.flatten ++ [])))))
          (data.map (fun tp => tp.1)) with _ | h' <;> rw [hh] at h <;> (try dsimp only at h)
      · exact absurd h (by simp)
      · rcases ht : applyReindex
            (reindexOf (np_unique (data.map (fun tp => tp.1) ++
              (data.map (fun tp => tp.2.2) ++ (negs.flatten ++ [])))))
            (data.map (fun tp => tp.2.2)) with _ | t' <;> rw [ht] at h <;> (try dsimp only at h)
        · exact absurd h (by simp)
        · rcases hng : applyReindexRows
              (reindexOf (np_unique (data.map (fun tp => tp.1) ++
                (data.map (fun tp => tp.2.2) ++ (negs.flatten ++ [])))))
              negs with _ | negs' <;> rw [hng] at h <;> (try dsimp only at h)
          · exact absurd h (by simp)
          · injection h with h
            subst h
            exact ⟨fun hnil => by simp [hnil] at hd, rfl, rfl, negs, g', rfl, rfl, hh, ht, hng⟩

/-- A successful collation carries the corruption side it was invoked with. -/
theorem collate_mode {fuel num_ents k : Nat} {neg_mode : NegMode} {data : List Triplet}
    {mode : Side} {fl : Option FDict} {g : Rng} {out : CollateOut}
    (h : collate_fn_impl fuel num_ents k neg_mode data mode fl g = some out) :
    out.mode = mode := by
  cases neg_mode with
  | batch => exact (collate_inv_batch h).2.1
  | full => exact (collate_inv_full h).2.1

/-- When every candidate in the domain is filtered, each iteration of the
rejection loop contributes nothing and the loop spins until the fuel runs
out. -/
theorem samplerLoop_all_filtered_none {k : Nat} {cand : Cand} {fs : List Nat}
    (hk : 0 < k) (hn : 0 < nCand cand)
    (hall : ∀ e, inDomain cand e → e ∈ fs) :
    ∀ fuel g, samplerLoop fuel k cand fs [] g = none := by
  intro fuel
  induction fuel with
  | zero => intro g; rfl
  | succ fuel ih =>
    intro g
    rw [samplerLoop, if_neg (by simp; omega)]
    dsimp only
    have hsurv : (mapCand cand (randint (nCand cand) (2 * k) g).1).filter
        (fun e => !(fs.contains e)) = [] := by
      rw [List.filter_eq_nil_iff]
      intro a ha
      have hdom := mem_mapCand_inDomain (fun i hi => randint_fst_lt hn i hi) a ha
      simp only [Bool.not_eq_eq_eq_not, Bool.not_true, List.contains_eq_any_beq,
        List.any_eq_false, beq_eq_false_iff_ne, ne_eq, not_forall, not_not]
      exact ⟨a, hall a hdom, beq_self_eq_true a⟩
    rw [hsurv, List.append_nil]
    exact ih _

/-! ### Claim theorems -/

/-- C1: Round-trip law of the reindexer: for every batch, `group_index`
applied to a list of id arrays returns a vocabulary that is the sorted set of
unique ids across all input arrays, together with a mapping such that every
mapped id lies in `[0, U)` where `U` is the vocabulary size, and indexing the
vocabulary with the mapped value of any input id returns that original global
id. -/
theorem group_index_roundtrip (data : List (List Nat)) :
    (group_index data).2.Sorted (· ≤ ·) ∧
    (group_index data).2.Nodup ∧
    (∀ x, x ∈ (group_index data).2 ↔ x ∈ data.flatten) ∧
    (∀ x ∈ data.flatten,
      (group_index data).1 x = some ((group_index data).2.indexOf x) ∧
      (group_index data).2.indexOf x < (group_index data).2.length ∧
      (group_index data).2.getD ((group_index data).2.indexOf x) 0 = x) := by
  simp only [group_index]
  refine ⟨np_unique_sorted _, np_unique_nodup _, fun x => mem_np_unique, ?_⟩
  intro x hx
  have hmem : x ∈ np_unique data.flatten := mem_np_unique.mpr hx
  have hlt : (np_unique data.flatten).indexOf x < (np_unique data.flatten).length :=
    List.indexOf_lt_length.mpr hmem
  refine ⟨reindexOf_mem hmem, hlt, ?_⟩
  rw [List.getD_eq_getElem _ 0 hlt, List.getElem_indexOf hlt]

/-- Witness for C1 at the concrete batch `[[3,1],[7,1]]` and input id `7`. -/
theorem group_index_roundtrip_witness :
    (group_index [[3, 1], [7, 1]]).1 7 = some ((group_index [[3, 1], [7, 1]]).2.indexOf 7) ∧
    (group_index [[3, 1], [7, 1]]).2.indexOf 7 < (group_index [[3, 1], [7, 1]]).2.length ∧
    (group_index [[3, 1], [7, 1]]).2.getD ((group_index [[3, 1], [7, 1]]).2.indexOf 7) 0 = 7 :=
  (group_index_roundtrip [[3, 1], [7, 1]]).2.2.2 7 (by decide)

/-- C8: the mapping returned by `group_index` is total exactly over the ids
appearing in the input arrays — an id absent from the inputs fails the lookup
(`none`, a `KeyError`) — and is deterministic given the same input, the
vocabulary being canonically the sorted deduplication of the inputs. -/
theorem group_index_mapping_domain (data : List (List Nat)) :
    (group_index data).2 = np_unique data.flatten ∧
    (∀ x ∈ data.flatten, ((group_index data).1 x).isSome) ∧
    (∀ x, x ∉ data.flatten → (group_index data).1 x = none) := by
  refine ⟨rfl, ?_, ?_⟩
  · intro x hx
    show (reindexOf (np_unique data.flatten) x).isSome
    rw [reindexOf_mem (mem_np_unique.mpr hx)]
    rfl
  · intro x hx
    show reindexOf (np_unique data.flatten) x = none
    exact reindexOf_not_mem (fun hmem => hx (mem_np_unique.mp hmem))

/-- Witness for C8: id `3` occurs in the input and is mapped; id `5` is
absent and the lookup fails. -/
theorem group_index_mapping_domain_witness :
    ((group_index [[3, 1], [7, 1]]).1 3).isSome ∧ (group_index [[3, 1], [7, 1]]).1 5 = none :=
  ⟨(group_index_mapping_domain [[3, 1], [7, 1]]).2.1 3 (by decide),
   (group_index_mapping_domain [[3, 1], [7, 1]]).2.2 5 (by decide)⟩

/-- C2: every terminating call of `uniform_sampler` with a filter set returns
exactly `k` ids, none of which belongs to the filter set (the result being
the truncation of the survivors accumulated by batches of `2k` draws). -/
theorem uniform_sampler_filtered_spec (fuel k : Nat) (cand : Cand) (fs res : List Nat)
    (g g' : Rng) (hn : 0 < nCand cand)
    (h : uniform_sampler fuel k cand (some fs) g = some (res, g')) :
    res.length = k ∧ ∀ e ∈ res, e ∉ fs := by
  obtain ⟨h1, h2, _⟩ := uniform_sampler_filtered_out hn h
  exact ⟨h1, h2⟩

/-- Witness for C2: candidates `[5,6]`, filter `{5}`, a stream always drawing
index `1`: the sampler returns `[6]`, of length `1` and avoiding `5`. -/
theorem uniform_sampler_filtered_spec_witness :
    uniform_sampler 2 1 (Cand.ents [5, 6]) (some [5]) ⟨fun _ => 1, 0⟩ =
      some ([6], ⟨fun _ => 1, 2⟩) ∧
    ([6] : List Nat).length = 1 ∧ (6 : Nat) ∉ ([5] : List Nat) := by
  have h : uniform_sampler 2 1 (Cand.ents [5, 6]) (some [5]) ⟨fun _ => 1, 0⟩ =
      some ([6], ⟨fun _ => 1, 2⟩) := rfl
  obtain ⟨h1, h2⟩ := uniform_sampler_filtered_spec 2 1 (Cand.ents [5, 6]) [5] [6]
    ⟨fun _ => 1, 0⟩ ⟨fun _ => 1, 2⟩ (by decide) h
  exact ⟨h, h1, h2 6 (by decide)⟩

/-- C6: with `filter_set = None`, `uniform_sampler` always succeeds, returns
exactly `k` ids each drawn as a random index in `[0, n)` mapped through the
candidate domain (hence inside the domain), and applies no exclusion: a
constant random stream yields `k` copies of one candidate, so ids may repeat
and may equal the true entity. -/
theorem uniform_sampler_unfiltered_spec (fuel k : Nat) (cand : Cand)
    (hn : 0 < nCand cand) :
    (∀ g, (uniform_sampler fuel k cand none g).isSome) ∧
    (∀ g res g', uniform_sampler fuel k cand none g = some (res, g') →
      res.length = k ∧ ∀ e ∈ res, inDomain cand e) ∧
    (∀ j res g', j < nCand cand →
      uniform_sampler fuel k cand none ⟨fun _ => j, 0⟩ = some (res, g') →
      res = List.replicate k (candAt cand j)) := by
  refine ⟨fun g => uniform_sampler_unfiltered_isSome fuel k cand g,
    fun g res g' h => uniform_sampler_unfiltered_out hn h, ?_⟩
  intro j res g' hj h
  rw [uniform_sampler] at h
  injection h with h
  have hres : res = mapCand cand (randint (nCand cand) k ⟨fun _ => j, 0⟩).1 :=
    (congrArg Prod.fst h).symm
  subst hres
  rw [List.eq_replicate_iff]
  constructor
  · rw [mapCand_length, randint_fst_length]
  · intro b hb
    simp only [mapCand, randint, List.map_map, List.mem_map] at hb
    obtain ⟨i, _, rfl⟩ := hb
    simp [Nat.mod_eq_of_lt hj]

/-- Witness for C6: domain `[0,3)`, `k = 2`, constant stream `2`: the result
is `[2,2] = replicate 2 2` — in range, repeated, no exclusion. -/
theorem uniform_sampler_unfiltered_spec_witness :
    uniform_sampler 0 2 (Cand.size 3) none ⟨fun _ => 2, 0⟩ = some ([2, 2], ⟨fun _ => 2, 2⟩) ∧
    ([2, 2] : List Nat) = List.replicate 2 (candAt (Cand.size 3) 2) := by
  have h : uniform_sampler 0 2 (Cand.size 3) none ⟨fun _ => 2, 0⟩ =
      some ([2, 2], ⟨fun _ => 2, 2⟩) := rfl
  exact ⟨h, (uniform_sampler_unfiltered_spec 0 2 (Cand.size 3) (by decide)).2.2 2 [2, 2]
    ⟨fun _ => 2, 2⟩ (by decide) h⟩

/-- C5: the filtered branch of `uniform_sampler` has no iteration bound and
no explicit failure: if every candidate in the domain lies in the filter set
the loop never terminates (it spins for any fuel, never raising); if some
candidate is outside the filter set the loop can make progress — a stream
drawing that candidate terminates within two iterations. -/
theorem uniform_sampler_rejection (k : Nat) (cand : Cand) (fs : List Nat)
    (hk : 0 < k) (hn : 0 < nCand cand) :
    ((∀ e, inDomain cand e → e ∈ fs) →
      ∀ fuel g, uniform_sampler fuel k cand (some fs) g = none) ∧
    (∀ j, j < nCand cand → candAt cand j ∉ fs →
      uniform_sampler 2 k cand (some fs) ⟨fun _ => j, 0⟩ ≠ none) := by
  constructor
  · intro hall fuel g
    rw [uniform_sampler, if_neg (by omega)]
    exact samplerLoop_all_filtered_none hk hn hall fuel g
  · intro j hj hjfs
    rw [uniform_sampler, if_neg (by omega)]
    rw [samplerLoop, if_neg (by simp; omega)]
    dsimp only
    have hdraw : (randint (nCand cand) (2 * k) ⟨fun _ => j, 0⟩).1 =
        List.replicate (2 * k) j := by
      simp only [randint]
      rw [List.map_const', List.length_range, Nat.mod_eq_of_lt hj]
    have hmap : mapCand cand (List.replicate (2 * k) j) =
        List.replicate (2 * k) (candAt cand j) := by
      simp [mapCand, List.map_replicate]
    have hc : fs.contains (candAt cand j) = false := by
      rw [Bool.eq_false_iff]
      intro hc
      exact hjfs (List.elem_iff.mp hc)
    have hfilter : (List.replicate (2 * k) (candAt cand j)).filter
        (fun e => !(fs.contains e)) = List.replicate (2 * k) (candAt cand j) := by
      rw [List.filter_eq_self]
      intro a ha
      rw [List.eq_of_mem_replicate ha, hc]
      rfl
    rw [hdraw, hmap, hfilter, List.nil_append]
    rw [samplerLoop, if_pos (by rw [List.length_replicate]; omega)]
    simp

/-- Witness for C5: with candidate pool `{4}` fully filtered the sampler
spins to `none` at any fuel; with an empty filter it terminates. -/
theorem uniform_sampler_rejection_witness :
    uniform_sampler 7 1 (Cand.ents [4]) (some [4]) ⟨fun _ => 0, 0⟩ = none ∧
    uniform_sampler 2 1 (Cand.ents [4]) (some []) ⟨fun _ => 0, 0⟩ ≠ none := by
  constructor
  · exact (uniform_sampler_rejection 1 (Cand.ents [4]) [4] (by decide) (by decide)).1
      (fun e he => he) 7 ⟨fun _ => 0, 0⟩
  · exact (uniform_sampler_rejection 1 (Cand.ents [4]) [] (by decide) (by decide)).2 0
      (by decide) (by decide)

/-- Each `mixed_collate_fn` call increments the `_step` counter. -/
theorem mixed_collate_fn_step (ds : KGDataset) (fuel : Nat) (data : List Triplet) (g : Rng) :
    ((ds.mixed_collate_fn fuel data g).1)._step = ds._step + 1 := by
  rw [KGDataset.mixed_collate_fn]
  dsimp only
  by_cases hp : (ds._step + 1) % 2 = 0
  · rw [if_pos hp]
  · rw [if_neg hp]

/-- After `n` calls the counter has advanced by `n`. -/
theorem iterMixed_step (ds : KGDataset) (fuel : Nat) (data : List Triplet) (g : Rng)
    (n : Nat) : (iterMixed ds fuel data g n)._step = ds._step + n := by
  induction n with
  | zero => rfl
  | succ n ih =>
    rw [iterMixed, mixed_collate_fn_step, ih]
    omega

/-- The corruption side of a successful `mixed_collate_fn` call is decided by
the parity of the incremented counter: even `_step + 1` corrupts heads, odd
corrupts tails. -/
theorem mixed_collate_fn_mode {ds : KGDataset} {fuel : Nat} {data : List Triplet}
    {g : Rng} {out : CollateOut}
    (h : (ds.mixed_collate_fn fuel data g).2 = some out) :
    out.mode = (if (ds._step + 1) % 2 = 0 then Side.head else Side.tail) := by
  rw [KGDataset.mixed_collate_fn] at h
  dsimp only at h
  by_cases hp : (ds._step + 1) % 2 = 0
  · rw [if_pos hp] at h
    rw [if_pos hp]
    exact collate_mode h
  · rw [if_neg hp] at h
    rw [if_neg hp]
    exact collate_mode h

/-- C4: `mixed_collate_fn` alternates the corruption side on every successive
call of the same instance; with `_step` starting at 0 and incremented
before the parity check, the n-th call corrupts the tail when `n` is odd and
the head when `n` is even — in particular the first call corrupts the tail. -/
theorem mixed_collate_alternation (ds : KGDataset) (fuel : Nat) (data : List Triplet)
    (g : Rng) (n : Nat) (out : CollateOut)
    (h0 : ds._step = 0) (hn : 1 ≤ n)
    (hcall : ((iterMixed ds fuel data g (n - 1)).mixed_collate_fn fuel data g).2 = some out) :
    out.mode = (if n % 2 = 1 then Side.tail else Side.head) ∧
    (n = 1 → out.mode = Side.tail) := by
  have hstep : (iterMixed ds fuel data g (n - 1))._step = n - 1 := by
    rw [iterMixed_step, h0, Nat.zero_add]
  have hmode := mixed_collate_fn_mode hcall
  rw [hstep] at hmode
  have hsucc : n - 1 + 1 = n := Nat.succ_pred_eq_of_pos hn
  rw [hsucc] at hmode
  constructor
  · rcases Nat.mod_two_eq_zero_or_one n with hpar | hpar
    · rw [if_neg (by omega), hmode, if_pos hpar]
    · rw [if_pos hpar, hmode, if_neg (by omega)]
  · intro h1
    subst h1
    rw [hmode]
    rfl

/-- Witness for C4: a dataset with `_step = 0`; its first `mixed_collate_fn`
call succeeds and corrupts the tail. -/
theorem mixed_collate_alternation_witness :
    ((iterMixed ⟨[(0, 0, 1)], 2, 1, .batch, false, ⟨none, none⟩, 0⟩ 5 [(0, 0, 1)]
        ⟨fun _ => 0, 0⟩ 0).mixed_collate_fn 5 [(0, 0, 1)] ⟨fun _ => 0, 0⟩).2 =
      some ⟨[0], [0], [1], [[0]], [0, 1], .tail⟩ ∧
    (⟨[0], [0], [1], [[0]], [0, 1], .tail⟩ : CollateOut).mode = Side.tail := by
  have h : ((iterMixed ⟨[(0, 0, 1)], 2, 1, .batch, false, ⟨none, none⟩, 0⟩ 5 [(0, 0, 1)]
      ⟨fun _ => 0, 0⟩ 0).mixed_collate_fn 5 [(0, 0, 1)] ⟨fun _ => 0, 0⟩).2 =
      some ⟨[0], [0], [1], [[0]], [0, 1], .tail⟩ := rfl
  exact ⟨h, (mixed_collate_alternation ⟨[(0, 0, 1)], 2, 1, .batch, false, ⟨none, none⟩, 0⟩
    5 [(0, 0, 1)] ⟨fun _ => 0, 0⟩ 1 ⟨[0], [0], [1], [[0]], [0, 1], .tail⟩ rfl
    (by decide) h).2 rfl⟩

/-- C10: constructing a `KGDataset` with `filter_mode = False` discards any
supplied `filter_dict`: `_filter_dict` becomes `{'head': None, 'tail': None}`,
every collation (head, tail or mixed) runs with a `None` filter dict, the
per-triplet filter lookup always yields no filter set, and the (unfiltered)
sampling path always succeeds. -/
theorem init_filter_mode_false_spec (triplets : List Triplet) (num_ents num_negs : Nat)
    (neg_mode : NegMode) (fd : Option FilterPair) (ds : KGDataset)
    (hds : KGDataset.init triplets num_ents num_negs neg_mode false fd = some ds) :
    ds._filter_dict = ⟨none, none⟩ ∧
    (∀ fuel data g, ds.head_collate_fn fuel data g =
      collate_fn_impl fuel num_ents num_negs neg_mode data .head none g) ∧
    (∀ fuel data g, ds.tail_collate_fn fuel data g =
      collate_fn_impl fuel num_ents num_negs neg_mode data .tail none g) ∧
    (∀ fuel data g, (ds.mixed_collate_fn fuel data g).2 =
        collate_fn_impl fuel num_ents num_negs neg_mode data .head none g ∨
      (ds.mixed_collate_fn fuel data g).2 =
        collate_fn_impl fuel num_ents num_negs neg_mode data .tail none g) ∧
    (∀ key, flLookup none key = some none) ∧
    (∀ fuel k cand mode data g, (sampleNegs fuel k cand none mode data g).isSome) := by
  rw [KGDataset.init.eq_def, if_pos rfl] at hds
  injection hds with hds
  subst hds
  refine ⟨rfl, fun fuel data g => rfl, fun fuel data g => rfl, ?_, fun key => rfl,
    fun fuel k cand mode data g => sampleNegs_none_isSome fuel k cand mode data g⟩
  intro fuel data g
  exact Or.inr rfl

/-- Witness for C10: a non-trivial `filter_dict` argument is supplied with
`filter_mode = False`; the stored filter dict is `⟨none, none⟩` anyway. -/
theorem init_filter_mode_false_spec_witness :
    (KGDataset.init [] 3 2 .batch false (some ⟨some [((1, 2), [3])], some [((0, 0), [1])]⟩) =
      some ⟨[], 3, 2, .batch, false, ⟨none, none⟩, 0⟩) ∧
    (⟨[], 3, 2, .batch, false, ⟨none, none⟩, 0⟩ : KGDataset)._filter_dict = ⟨none, none⟩ := by
  have h : KGDataset.init [] 3 2 .batch false
      (some ⟨some [((1, 2), [3])], some [((0, 0), [1])]⟩) =
      some ⟨[], 3, 2, .batch, false, ⟨none, none⟩, 0⟩ := rfl
  exact ⟨h, (init_filter_mode_false_spec [] 3 2 .batch
    (some ⟨some [((1, 2), [3])], some [((0, 0), [1])]⟩) _ h).1⟩

/-- C7: in `full` mode the collation re-runs the reindexer over heads, tails
and all sampled negatives combined; for a batch of `B` triplets with all ids
in `[0, num_ents)` the resulting vocabulary has size at most `B * (2 + k)`
and at most `num_ents`. -/
theorem full_mode_vocab_bound (fuel num_ents k : Nat) (data : List Triplet) (mode : Side)
    (fl : Option FDict) (g : Rng) (out : CollateOut)
    (hne : 0 < num_ents)
    (hids : ∀ tp ∈ data, tp.1 < num_ents ∧ tp.2.2 < num_ents)
    (hout : collate_fn_impl fuel num_ents k .full data mode fl g = some out) :
    out.all_ents.length ≤ data.length * (2 + k) ∧ out.all_ents.length ≤ num_ents := by
  obtain ⟨hnil, hmode, hr, negs, g', hs, hall, hh, ht, hng⟩ := collate_inv_full hout
  have hnc : 0 < nCand (Cand.size num_ents) := hne
  obtain ⟨hnegs_len, hrows⟩ := sampleNegs_spec hnc hs
  have hflat : negs.flatten.length = data.length * k := by
    rw [List.length_flatten]
    have hmapk : negs.map List.length = List.replicate negs.length k := by
      rw [List.eq_replicate_iff]
      refine ⟨by simp, ?_⟩
      intro b hb
      rw [List.mem_map] at hb
      obtain ⟨nl, hnl, rfl⟩ := hb
      exact (hrows nl hnl).1
    rw [hmapk, List.sum_replicate, smul_eq_mul, hnegs_len]
  constructor
  · have h1 : out.all_ents.length ≤ (data.map (fun tp : Triplet => tp.1) ++
        (data.map (fun tp : Triplet => tp.2.2) ++ (negs.flatten ++ []))).length := by
      rw [hall]
      exact np_unique_length_le _
    have h2 : (data.map (fun tp : Triplet => tp.1) ++
        (data.map (fun tp : Triplet => tp.2.2) ++ (negs.flatten ++ []))).length =
        data.length + (data.length + (data.length * k + 0)) := by
      simp [hflat]
    have h3 : data.length * (2 + k) = data.length * 2 + data.length * k :=
      Nat.mul_add data.length 2 k
    omega
  · have hnodup : out.all_ents.Nodup := by
      rw [hall]
      exact np_unique_nodup _
    have hlt : ∀ x ∈ out.all_ents, x < num_ents := by
      rw [hall]
      intro x hx
      have hx' := mem_np_unique.mp hx
      simp only [List.mem_append, List.mem_map, List.not_mem_nil, or_false] at hx'
      rcases hx' with ⟨tp, htp, rfl⟩ | ⟨tp, htp, rfl⟩ | hx'
      · exact (hids tp htp).1
      · exact (hids tp htp).2
      · rw [List.mem_flatten] at hx'
        obtain ⟨nl, hnl, hxnl⟩ := hx'
        exact (hrows nl hnl).2 x hxnl
    have hcard := List.toFinset_card_of_nodup hnodup
    have hsub : out.all_ents.toFinset ⊆ Finset.range num_ents := by
      intro x hx
      rw [List.mem_toFinset] at hx
      rw [Finset.mem_range]
      exact hlt x hx
    calc out.all_ents.length = out.all_ents.toFinset.card := hcard.symm
      _ ≤ (Finset.range num_ents).card := Finset.card_le_card hsub
      _ = num_ents := Finset.card_range num_ents

/-- Witness for C7: one triplet `(0,0,1)`, `num_ents = 3`, one negative drawn
as entity `2`: the final vocabulary `[0,1,2]` has size `3 ≤ 1*(2+1)` and
`3 ≤ 3`. -/
theorem full_mode_vocab_bound_witness :
    collate_fn_impl 5 3 1 .full [(0, 0, 1)] .head none ⟨fun _ => 2, 0⟩ =
      some ⟨[0], [0], [1], [[2]], [0, 1, 2], .head⟩ ∧
    ([0, 1, 2] : List Nat).length ≤ 1 * (2 + 1) ∧ ([0, 1, 2] : List Nat).length ≤ 3 := by
  have h : collate_fn_impl 5 3 1 .full [(0, 0, 1)] .head none ⟨fun _ => 2, 0⟩ =
      some ⟨[0], [0], [1], [[2]], [0, 1, 2], .head⟩ := rfl
  obtain ⟨h1, h2⟩ := full_mode_vocab_bound 5 3 1 [(0, 0, 1)] .head none ⟨fun _ => 2, 0⟩
    ⟨[0], [0], [1], [[2]], [0, 1, 2], .head⟩ (by decide) (by decide) h
  exact ⟨h, h1, h2⟩

/-- C3 counterexample: head-corruption collation filters by
`_filter_dict['head']`, not `_filter_dict['tail']`. With
`filter_dict = {'head': {}, 'tail': {(1,0): {0}}}` (filtering enabled, both
required keys present, the example's `tail` entry as stated), head-corruption
of `(0,0,1)` on the batch candidate pool `[0,1]` returns the negative with
local id `0`, i.e. global entity `all_ents[0] = 0` — entity `0` is returned,
so "never returns entity 0" fails as stated. -/
theorem head_filter_tail_dict_counterexample :
    ((KGDataset.init [(0, 0, 1)] 2 1 .batch true
        (some ⟨some [], some [((1, 0), [0])]⟩)).bind
      (fun ds => ds.head_collate_fn 5 [(0, 0, 1)] ⟨fun _ => 0, 0⟩)) =
      some ⟨[0], [0], [1], [[0]], [0, 1], .head⟩ ∧
    ([0, 1] : List Nat).getD 0 0 = 0 :=
  ⟨rfl, rfl⟩

/-- C3 amended: with the filter set stored under `filter_dict['head']` for
the `(other-endpoint, relation)` key — here `filter_dict['head'][(1,0)] = {0}`
— a successful head-corruption collation of `(0,0,1)` never returns entity
`0` as a negative: every sampled negative's global id (the vocabulary entry
at its reindexed position) differs from `0`. -/
theorem head_filter_amended (fuel k : Nat) (g : Rng) (fdt : Option FDict)
    (ds : KGDataset) (out : CollateOut)
    (hds : KGDataset.init [(0, 0, 1)] 2 k .batch true
      (some ⟨some [((1, 0), [0])], fdt⟩) = some ds)
    (hout : ds.head_collate_fn fuel [(0, 0, 1)] g = some out) :
    ∀ j ∈ out.neg_ents.flatten, out.all_ents.getD j 0 ≠ 0 := by
  rw [KGDataset.init.eq_def] at hds
  rw [if_neg (by decide)] at hds
  dsimp only at hds
  injection hds with hds
  subst hds
  obtain ⟨hnil, hmode, hr, hall, negs, g', hs, hh, ht, hng⟩ := collate_inv_batch hout
  have hae : out.all_ents = [0, 1] := by
    rw [hall]
    rfl
  rw [hae] at hs hng
  rw [sampleNegs] at hs
  rw [show flLookup (some [((1, 0), [0])]) (negKey Side.head (0, 0, 1)) =
    some (some [0]) from rfl] at hs
  dsimp only at hs
  rcases hus : uniform_sampler fuel k (Cand.ents [0, 1]) (some [0]) g with _ | ⟨ne, g₁⟩ <;>
    rw [hus] at hs <;> (try dsimp only at hs)
  · exact absurd hs (by simp)
  · rw [show sampleNegs fuel k (Cand.ents [0, 1]) (some [((1, 0), [0])]) Side.head [] g₁ =
      some ([], g₁) from rfl] at hs
    dsimp only at hs
    injection hs with hs
    have hnegs : negs = [ne] := (congrArg Prod.fst hs).symm
    subst hnegs
    obtain ⟨hlen, hfs, hdom⟩ :=
      uniform_sampler_filtered_out (show 0 < nCand (Cand.ents [0, 1]) by decide) hus
    intro j hj
    rw [hae]
    rw [List.mem_flatten] at hj
    obtain ⟨row, hrow, hjrow⟩ := hj
    obtain ⟨src, hsrc, hsrcrow⟩ := applyReindexRows_mem hng row hrow
    have hsrc' : src = ne := by
      rcases List.mem_cons.mp hsrc with h | h
      · exact h
      · exact absurd h (List.not_mem_nil src)
    subst hsrc'
    obtain ⟨e, he, hfe⟩ := applyReindex_mem hsrcrow j hjrow
    obtain ⟨hemem, hjlt, hgetD⟩ := reindexOf_some_getD hfe
    rw [hgetD]
    intro heq
    exact hfs e he (by rw [heq]; exact List.mem_singleton.mpr rfl)

/-- Witness for the amended C3: with `filter_dict['head'][(1,0)] = {0}` and a
stream drawing indices `0,1`, the collation succeeds with negative entity `1`
(local id `1`), and the vocabulary entry at that position is not `0`. -/
theorem head_filter_amended_witness :
    (KGDataset.head_collate_fn
        ⟨[(0, 0, 1)], 2, 1, .batch, true, ⟨some [((1, 0), [0])], some []⟩, 0⟩
        5 [(0, 0, 1)] ⟨fun i => i, 0⟩ =
      some ⟨[0], [0], [1], [[1]], [0, 1], .head⟩) ∧
    (⟨[0], [0], [1], [[1]], [0, 1], .head⟩ : CollateOut).all_ents.getD 1 0 ≠ 0 := by
  have hds : KGDataset.init [(0, 0, 1)] 2 1 .batch true
      (some ⟨some [((1, 0), [0])], some []⟩) =
      some ⟨[(0, 0, 1)], 2, 1, .batch, true, ⟨some [((1, 0), [0])], some []⟩, 0⟩ := rfl
  have hout : KGDataset.head_collate_fn
      ⟨[(0, 0, 1)], 2, 1, .batch, true, ⟨some [((1, 0), [0])], some []⟩, 0⟩
      5 [(0, 0, 1)] ⟨fun i => i, 0⟩ =
      some ⟨[0], [0], [1], [[1]], [0, 1], .head⟩ := rfl
  exact ⟨hout, head_filter_amended 5 1 ⟨fun i => i, 0⟩ (some []) _ _ hds hout 1 (by decide)⟩

/-! ### Lemmas about `TestKGDataset` -/

theorem mapM_option_eq_map {α β : Type} (f : α → Option β) (m : α → β) (l : List α)
    (hf : ∀ a ∈ l, f a = some (m a)) : l.mapM f = some (l.map m) := by
  induction l with
  | nil => rfl
  | cons a tl ih =>
    rw [List.mapM_cons, hf a (List.mem_cons_self a tl),
      ih (fun x hx => hf x (List.mem_cons_of_mem a hx))]
    rfl

theorem mapM_hrt_t (tl : List Nat) (itemF : Nat → TestItem) (l : List Nat)
    (hf : ∀ i ∈ l, (itemF i).hrt.2.2 = some (tl.getD i 0)) :
    (l.map itemF).mapM (fun x => x.hrt.2.2) = some (l.map (fun i => tl.getD i 0)) := by
  induction l with
  | nil => rfl
  | cons a l ih =>
    rw [List.map_cons, List.mapM_cons, hf a (List.mem_cons_self a l), List.map_cons,
      ih (fun x hx => hf x (List.mem_cons_of_mem a hx))]
    rfl

/-- In `normal` mode, `__getitem__` returns the indexed triplet fields, the
shared candidate object and the truthiness-guarded correct index. -/
theorem getitem_normal {ds : TestKGDataset} (hmode : ds._mode = .normal) (i : Nat) :
    ds.getitem i = some ⟨(ds._h.getD i 0, ds._r.getD i 0, ds._t.map (fun tl => tl.getD i 0)),
      .whole ds._cand,
      if corrTruthy ds._corr_idx then some ((ds._corr_idx.getD []).getD i 0) else none⟩ := by
  rw [TestKGDataset.getitem.eq_def, hmode]

/-- C9: for every non-empty batch of `normal`-mode items (with the candidate
object the entity count, as the mode requires), `TestKGDataset.collate_fn`
returns the `normal` label, aligned head/relation/tail columns, the shared
candidate range `[0, num_entities)` as a single freshly-built row, and no
correct-index tensor. -/
theorem test_collate_normal_spec (ds : TestKGDataset) (tl idxs : List Nat)
    (items : List TestItem)
    (hmode : ds._mode = .normal)
    (hcand : ds._cand = .num ds._num_ents)
    (htl : ds._t = some tl)
    (hne : idxs ≠ [])
    (hitems : idxs.mapM ds.getitem = some items) :
    ds.collate_fn items = some ⟨.normal,
      idxs.map (fun i => ds._h.getD i 0),
      idxs.map (fun i => ds._r.getD i 0),
      some (idxs.map (fun i => tl.getD i 0)),
      [List.range ds._num_ents], none⟩ := by
  rw [mapM_option_eq_map ds.getitem
    (fun i => (⟨(ds._h.getD i 0, ds._r.getD i 0, some (tl.getD i 0)),
      .whole (.num ds._num_ents),
      if corrTruthy ds._corr_idx then some ((ds._corr_idx.getD []).getD i 0)
      else none⟩ : TestItem)) idxs
    (by
      intro i _
      rw [getitem_normal hmode i, htl, hcand]
      rfl)] at hitems
  injection hitems with hitems
  subst hitems
  cases idxs with
  | nil => exact absurd rfl hne
  | cons i0 rest =>
    have hts := mapM_hrt_t tl
      (fun i => (⟨(ds._h.getD i 0, ds._r.getD i 0, some (tl.getD i 0)),
        .whole (.num ds._num_ents),
        if corrTruthy ds._corr_idx then some ((ds._corr_idx.getD []).getD i 0)
        else none⟩ : TestItem)) (i0 :: rest) (fun i _ => rfl)
    rw [List.map_cons] at hts
    rw [List.map_cons, TestKGDataset.collate_fn.eq_def]
    dsimp only
    rw [hmode]
    dsimp only
    rw [hts]
    dsimp only
    simp [List.map_map, Function.comp]

/-- Witness for C9: a two-item `normal`-mode batch with `num_entities = 2`;
the collation returns the `[0,2)` candidate row and no correct index. -/
theorem test_collate_normal_spec_witness :
    TestKGDataset.collate_fn ⟨2, .normal, [5, 6], [0, 1], some [6, 5], .num 2, none⟩
      [⟨(5, 0, some 6), .whole (.num 2), none⟩, ⟨(6, 1, some 5), .whole (.num 2), none⟩] =
    some ⟨.normal, [5, 6], [0, 1], some [6, 5], [List.range 2], none⟩ := by
  have h := test_collate_normal_spec ⟨2, .normal, [5, 6], [0, 1], some [6, 5], .num 2, none⟩
    [6, 5] [0, 1]
    [⟨(5, 0, some 6), .whole (.num 2), none⟩, ⟨(6, 1, some 5), .whole (.num 2), none⟩]
    rfl rfl rfl (by decide) rfl
  exact h

end PGL

